import Mathlib

/-!
Verification of the lexical-scanner core of the `stela` repository
(`Lexer`, pattern compilation, rule validation, `TokenStream`).

The TypeScript source is shallowly embedded: source text is a `List Char`,
JS numbers holding non-negative indices are `Nat` (an `Int` where the JS
value may be negative), exceptions are explicit (`Except` or an error
component in the result), and the scan loop of `Lexer.tokenize` becomes a
fuel-indexed recursion where the fuel bounds the number of loop iterations
(the loop advances the offset by at least one character per iteration, so
`source.length` iterations always suffice; this is proved below).

Regular-expression matching itself is not re-implemented: a rule whose
pattern has been compiled successfully is represented at scan level by its
observable behaviour, a `matcher` function from the remaining input to the
optional matched text (`match[0]` of `remaining.match(compiled)`), exactly
the information the scan loop consumes.  The syntactic side of pattern
compilation (`compilePattern`: flag handling, anchoring, escaping, and the
failure on custom matcher functions) is embedded separately and faithfully.
-/

/-- Source position as in `types/index.ts`: 1-based line/column, 0-based
offset.  The optional `filename` field is never set by the scanner and is
omitted. -/
structure Position where
  line : Nat
  column : Nat
  offset : Nat
  deriving Repr, DecidableEq

/-- Token as in `types/index.ts`.  `metadata` is an open bag of which the
scanner itself only ever sets the `error` key, modelled as `metadataError`. -/
structure Token where
  type : String
  value : List Char
  position : Position
  metadataError : Option String
  deriving Repr, DecidableEq

/-- The `skipWhitespace` configuration value: `true`, `false`, or a `RegExp`
tested against the single current character (the regex is abstracted by its
observable behaviour on one character). -/
inductive SkipWS where
  | all
  | off
  | pattern (test : Char → Bool)

/-- Resolved lexer configuration (`this.config` after the constructor). -/
structure LexConfig where
  skipWhitespace : SkipWS
  caseSensitive : Bool

/-- JS `/\s/.test c`: WhiteSpace (tab, VT, FF, space, NBSP, FEFF, Unicode Zs)
plus LineTerminator (LF, CR, LS, PS). -/
def isJsWhitespace (c : Char) : Bool :=
  let n := c.toNat
  (9 ≤ n && n ≤ 13) || n == 32 || n == 160 || n == 0x1680 ||
    (0x2000 ≤ n && n ≤ 0x200a) || n == 0x2028 || n == 0x2029 ||
    n == 0x202f || n == 0x205f || n == 0x3000 || n == 0xfeff

/-- The whitespace test of the scan loop (`tokenize`, lines 49-72): with
`skipWhitespace === true` test `/\s/`, with a `RegExp` test that pattern,
with `false` never skip. -/
def shouldSkip (cfg : LexConfig) (c : Char) : Bool :=
  match cfg.skipWhitespace with
  | SkipWS.all => isJsWhitespace c
  | SkipWS.off => false
  | SkipWS.pattern t => t c

/-- Scan-level token rule: a rule of `this.rules` whose pattern has been
compiled successfully, represented by the compiled pattern's observable
match behaviour.  `matcher rem` is `remaining.match(compiled)` reduced to
its `match[0]` component (`none` when the match is `null`).  `precedence`
is the optional JS number, `action` the optional token construction hook. -/
structure LexRule where
  type : String
  matcher : List Char → Option (List Char)
  precedence : Option Int
  action : Option (List Char → Position → Option Token)

/-- The inner `for (const rule of this.rules)` loop of `tokenize`
(lines 81-128): the first rule in list order for which `match && match[0]`
is truthy wins; a `null` match or an empty `match[0]` falls through to the
next rule. -/
def firstMatch (rules : List LexRule) (rem : List Char) : Option (LexRule × List Char) :=
  match rules with
  | [] => none
  | r :: rs =>
    match r.matcher rem with
    | some s => if s.isEmpty then firstMatch rs rem else some (r, s)
    | none => firstMatch rs rem

/-- Token construction on a successful match (lines 96-107): the rule's
`action` applied to the matched text and start position when present
(`none` filters the token out), otherwise the default token. -/
def mkMatchToken (r : LexRule) (s : List Char) (pos : Position) : Option Token :=
  match r.action with
  | some act => act s pos
  | none => some { type := r.type, value := s, position := pos, metadataError := none }

/-- JS `matchedText.lastIndexOf "\n"` (meaningful when a newline occurs). -/
def lastNewlineIdx (s : List Char) : Nat :=
  s.length - 1 - s.reverse.indexOf '\n'

/-- Line/column update after consuming matched text (lines 114-122):
with embedded newlines, `line += newlines` and
`column = length - lastNewlineIndex`; otherwise `column += length`. -/
def advanceLineCol (line column : Nat) (s : List Char) : Nat × Nat :=
  let newlines := s.count '\n'
  if 0 < newlines then
    (line + newlines, s.length - lastNewlineIdx s)
  else
    (line, column + s.length)

/-- One loop iteration of `tokenize`, recorded as ghost instrumentation:
a skipped whitespace character, a rule match (with the optionally emitted
token and the consumed length), or a single-character error token. -/
inductive Event where
  | ws (c : Char) (offset : Nat)
  | matched (tok : Option Token) (len : Nat) (offset : Nat)
  | err (tok : Token) (offset : Nat)
  deriving Repr

/-- The `while (offset < source.length)` loop of `tokenize` (lines 46-149),
one `Event` per iteration.  `fuel` bounds the number of iterations; since
every iteration consumes at least one character of `rem`, fuel
`source.length` is always enough (proved in `tokenize_bounded_iterations`).
State: remaining input, current offset, line, column. -/
def scanFuel (cfg : LexConfig) (rules : List LexRule) :
    Nat → List Char → Nat → Nat → Nat → List Event
  | 0, _, _, _, _ => []
  | _ + 1, [], _, _, _ => []
  | fuel + 1, c :: rest, offset, line, column =>
    if shouldSkip cfg c then
      Event.ws c offset ::
        scanFuel cfg rules fuel rest (offset + 1)
          (if c = '\n' then line + 1 else line)
          (if c = '\n' then 1 else column + 1)
    else
      match firstMatch rules (c :: rest) with
      | some (r, s) =>
        Event.matched (mkMatchToken r s { line := line, column := column, offset := offset })
            s.length offset ::
          scanFuel cfg rules fuel ((c :: rest).drop s.length) (offset + s.length)
            (advanceLineCol line column s).1 (advanceLineCol line column s).2
      | none =>
        Event.err
          { type := "ERROR", value := [c],
            position := { line := line, column := column, offset := offset },
            metadataError := some ("Unexpected character: " ++ String.mk [c]) } offset ::
          scanFuel cfg rules fuel rest (offset + 1) line (column + 1)

/-- The full scan of a source string from offset 0, line 1, column 1. -/
def tokenizeEvents (cfg : LexConfig) (rules : List LexRule) (source : List Char) :
    List Event :=
  scanFuel cfg rules source.length source 0 1 1

/-- Token emitted by an iteration, if any (whitespace skips and
action-filtered matches emit none). -/
def eventToken : Event → Option Token
  | Event.ws _ _ => none
  | Event.matched t _ _ => t
  | Event.err t _ => some t

/-- Tokens of an event trace, in order. -/
def tokensOf (events : List Event) : List Token :=
  events.filterMap eventToken

/-- The token list accumulated by `Lexer.tokenize` (the list wrapped into
the returned `TokenStream`). -/
def tokenize (cfg : LexConfig) (rules : List LexRule) (source : List Char) :
    List Token :=
  tokensOf (tokenizeEvents cfg rules source)

/-- Span of source offsets consumed by one iteration: `(start, length)`. -/
def eventSpan : Event → Nat × Nat
  | Event.ws _ o => (o, 1)
  | Event.matched _ len o => (o, len)
  | Event.err _ o => (o, 1)

/-- Offsets covered by an event's span, in increasing order. -/
def spanOffsets (e : Event) : List Nat :=
  List.range' (eventSpan e).1 (eventSpan e).2

/-- Effective precedence of a rule: `rule.precedence ?? 0`. -/
def precOf (r : LexRule) : Int :=
  r.precedence.getD 0

/-- Stable insertion of a rule into a list sorted by descending effective
precedence: the rule goes before the first strictly lower-precedence
element, hence after all earlier-inserted ties. -/
def insertByPrec (r : LexRule) : List LexRule → List LexRule
  | [] => [r]
  | x :: xs => if precOf x < precOf r then r :: x :: xs else x :: insertByPrec r xs

/-- The constructor's `rules.sort((a, b) => (b.precedence ?? 0) - (a.precedence ?? 0))`
(lines 25-26): a stable sort by descending effective precedence.  JS
`Array.prototype.sort` is specified stable and, for this consistent
comparator, produces the unique stable descending order, which this
left-to-right insertion sort also produces. -/
def sortRules (rules : List LexRule) : List LexRule :=
  rules.foldl (fun acc r => insertByPrec r acc) []

/-- A rule matches non-emptily at the remaining input (the `match && match[0]`
success condition of the rule loop). -/
def MatchesNE (r : LexRule) (rem : List Char) : Prop :=
  ∃ s, r.matcher rem = some s ∧ s ≠ []

/-- Well-formedness of scan-level matchers: the matched text is no longer
than the remaining input.  Every JS regex match satisfies this, since
`match[0]` is a substring of the string matched against. -/
def MatchersBounded (rules : List LexRule) : Prop :=
  ∀ r ∈ rules, ∀ rem s, r.matcher rem = some s → s.length ≤ rem.length

/-- Rule actions, when present, either filter the token out or return a
token carrying the start position they were given. -/
def ActionsPreservePos (rules : List LexRule) : Prop :=
  ∀ r ∈ rules, ∀ act, r.action = some act →
    ∀ s pos t, act s pos = some t → t.position = pos

/-- Syntax-level rule pattern as declared in `interfaces/lexer.ts`:
a `RegExp` (source text and flag characters), a literal string, or a custom
matcher function `(source, offset) -> matchedText | null`. -/
inductive LexPatternSyn where
  | regex (source : List Char) (flags : List Char)
  | str (s : List Char)
  | custom (f : List Char → Nat → Option (List Char))

/-- Syntax-level token rule as declared in `interfaces/lexer.ts`. -/
structure TokenRule where
  type : String
  pattern : LexPatternSyn
  precedence : Option Int
  action : Option (List Char → Position → Option Token)

/-- JS `String.prototype.replace` with a plain one-character search string:
removes the first occurrence of that character. -/
def removeFirst (c : Char) : List Char → List Char
  | [] => []
  | x :: xs => if x = c then xs else x :: removeFirst c xs

/-- Regex metacharacters escaped by `compilePattern`'s
`replace(/[.*+?^${}()|[\]\\]/g, "\\$&")`. -/
def regexSpecials : List Char :=
  ['.', '*', '+', '?', '^', '$', '{', '}', '(', ')', '|', '[', ']', '\\']

/-- Escape one character: a metacharacter gains a leading backslash. -/
def escapeRegexChar (c : Char) : List Char :=
  if c ∈ regexSpecials then ['\\', c] else [c]

/-- JS `pattern.replace(/[.*+?^${}()|[\]\\]/g, "\\$&")`: every
metacharacter occurrence prefixed with a backslash. -/
def escapeRegex (s : List Char) : List Char :=
  s.flatMap escapeRegexChar

/-- Result of a successful pattern compilation: the `RegExp` produced by
`compilePattern`, as source text and flag characters. -/
structure CompiledRegex where
  source : List Char
  flags : List Char
  deriving Repr, DecidableEq

/-- Embedding of `Lexer.compilePattern` (lines 222-247).  A `RegExp`
pattern has its `g` flag stripped, its `i` flag forced to agree with the
`caseSensitive` policy, and its source `^`-anchored when not already so.
A string pattern is escaped, anchored, and given the `i` flag exactly when
the policy is case-insensitive.  Any other pattern value — in particular a
custom matcher function — reaches the string branch, where calling
`pattern.replace` on a non-string throws a `TypeError` (functions have no
`replace` method); this is the thrown-exception case. -/
def compilePatternE (caseSensitive : Bool) : LexPatternSyn → Except String CompiledRegex
  | LexPatternSyn.regex src flags =>
    let flags1 := removeFirst 'g' flags
    let flags2 :=
      if caseSensitive && flags1.contains 'i' then removeFirst 'i' flags1 else flags1
    let flags3 :=
      if !caseSensitive && !flags2.contains 'i' then flags2 ++ ['i'] else flags2
    let source := if src.head? = some '^' then src else '^' :: src
    Except.ok { source := source, flags := flags3 }
  | LexPatternSyn.str s =>
    let escaped := escapeRegex s
    let flags := if caseSensitive then [] else ['i']
    Except.ok { source := '^' :: escaped, flags := flags }
  | LexPatternSyn.custom _ =>
    Except.error "pattern.replace is not a function"

/-- Validation result record of `types/index.ts`. -/
structure ValidationResult where
  valid : Bool
  errors : List String
  warnings : List String
  deriving Repr, DecidableEq

/-- Helper for `firstOccurrences`: keep each element not seen before. -/
def firstOccurrencesAux (seen : List String) : List String → List String
  | [] => []
  | t :: ts =>
    if t ∈ seen then firstOccurrencesAux seen ts
    else t :: firstOccurrencesAux (t :: seen) ts

/-- Key order of the JS `Map` built by `validateRules` (lines 185-189):
each type in order of its first occurrence in the rule list. -/
def firstOccurrences (l : List String) : List String :=
  firstOccurrencesAux [] l

/-- Number of rules registered for a given type. -/
def countType (rules : List TokenRule) (t : String) : Nat :=
  (rules.filter (fun r => r.type = t)).length

/-- Embedding of `Lexer.validateRules` (lines 176-215): an error when the
rule set is empty, a warning per type with more than one rule, an error per
rule whose pattern fails to compile (carrying the thrown message), and
`valid` true exactly when there is no error. -/
def validateRules (caseSensitive : Bool) (rules : List TokenRule) : ValidationResult :=
  let emptyErrors := if rules.length = 0 then ["No token rules defined"] else []
  let types := firstOccurrences (rules.map (fun r => r.type))
  let warnings :=
    (types.filter (fun t => 1 < countType rules t)).map
      (fun t => "Multiple rules defined for type \x22" ++ t ++ "\x22")
  let patternErrors :=
    rules.filterMap (fun r =>
      match compilePatternE caseSensitive r.pattern with
      | Except.ok _ => none
      | Except.error m =>
        some ("Invalid pattern for rule \x22" ++ r.type ++ "\x22: " ++ m))
  let errors := emptyErrors ++ patternErrors
  { valid := errors.isEmpty, errors := errors, warnings := warnings }

/-- Token-stream state of `TokenStream.ts`: the token sequence, the cursor,
and the checkpoint history. -/
structure TokenStream where
  tokens : List Token
  currentIndex : Nat
  marks : List Nat

/-- Embedding of `TokenStream.reset` (lines 187-193).  The JS method
mutates `currentIndex` in the valid case and throws otherwise; here the
result is the stream state after the call paired with the thrown error
message, if any (`none` = normal return).  On a throw the state is the
receiver unchanged. -/
def TokenStream.reset (ts : TokenStream) (position : Int) :
    TokenStream × Option String :=
  if 0 ≤ position ∧ position ≤ (ts.tokens.length : Int) then
    ({ ts with currentIndex := position.toNat }, none)
  else
    (ts, some ("Invalid reset position: " ++ toString position))

/-- Concrete configuration: `skipWhitespace: true`, `caseSensitive: true`
(the constructor defaults). -/
def cfgSkipAll : LexConfig := { skipWhitespace := SkipWS.all, caseSensitive := true }

/-- Concrete configuration with whitespace skipping disabled. -/
def cfgNoSkip : LexConfig := { skipWhitespace := SkipWS.off, caseSensitive := true }

/-- Match behaviour of the compiled literal pattern `lit` (case-sensitive):
the matched text is `lit` exactly when it is a prefix of the remaining input. -/
def litMatcher (lit : List Char) : List Char → Option (List Char) :=
  fun rem => if lit.isPrefixOf rem then some lit else none

/-- Match behaviour of a compiled `/^./s`-like pattern: any one character. -/
def oneCharMatcher : List Char → Option (List Char) :=
  fun rem =>
    match rem with
    | [] => none
    | c :: _ => some [c]

/-- Concrete rule matching the literal `a`, default precedence, no action. -/
def ruleA : LexRule :=
  { type := "A", matcher := litMatcher ['a'], precedence := none, action := none }

/-- Concrete rule of the same (default) precedence as `ruleA`, also matching
the literal `a`, registered after it. -/
def ruleB : LexRule :=
  { type := "B", matcher := litMatcher ['a'], precedence := none, action := none }

/-- Concrete rule whose matcher always reports the empty match. -/
def ruleEmpty : LexRule :=
  { type := "E", matcher := fun _ => some [], precedence := none, action := none }

/-- Concrete rule consuming any single character. -/
def anyCharRule : LexRule :=
  { type := "CHAR", matcher := oneCharMatcher, precedence := none, action := none }

/-- Token at a fixed position (offset 5), fabricated by `badPosAction`. -/
def badPosToken : Token :=
  { type := "X", value := ['x'],
    position := { line := 9, column := 9, offset := 5 }, metadataError := none }

/-- Action that ignores the start position it is given and fabricates a
token at a fixed position (offset 5). -/
def badPosAction : List Char → Position → Option Token :=
  fun _ _ => some badPosToken

/-- Rule matching the literal `a` whose action fabricates tokens at a fixed
position. -/
def badPosRule : LexRule :=
  { type := "A", matcher := litMatcher ['a'], precedence := none,
    action := some badPosAction }

/-- Concrete syntax-level rule with a literal string pattern. -/
def vRuleStr : TokenRule :=
  { type := "A", pattern := LexPatternSyn.str ['a'], precedence := none, action := none }

/-- Concrete syntax-level rule with a custom matcher function pattern. -/
def vRuleCustom : TokenRule :=
  { type := "A", pattern := LexPatternSyn.custom (fun _ _ => none),
    precedence := none, action := none }

/-! Supporting lemmas. -/

theorem firstMatch_eq_some {rules : List LexRule} {rem : List Char}
    {r : LexRule} {s : List Char} (h : firstMatch rules rem = some (r, s)) :
    r.matcher rem = some s ∧ s ≠ [] ∧ r ∈ rules := by
  induction rules with
  | nil => simp [firstMatch] at h
  | cons x xs ih =>
    cases hx : x.matcher rem with
    | none =>
      simp only [firstMatch, hx] at h
      rcases ih h with ⟨h1, h2, h3⟩
      exact ⟨h1, h2, List.mem_cons_of_mem _ h3⟩
    | some s0 =>
      by_cases he : s0.isEmpty
      · simp only [firstMatch, hx, he, if_true] at h
        rcases ih h with ⟨h1, h2, h3⟩
        exact ⟨h1, h2, List.mem_cons_of_mem _ h3⟩
      · simp only [firstMatch, hx, he, if_false, Bool.false_eq_true] at h
        obtain ⟨rfl, rfl⟩ : x = r ∧ s0 = s := by
          simpa [Prod.ext_iff] using h
        refine ⟨hx, ?_, List.mem_cons_self _ _⟩
        simpa [List.isEmpty_iff] using he

theorem firstMatch_append_left {l1 l2 : List LexRule} {rem : List Char}
    (h : ∀ r ∈ l1, ¬ MatchesNE r rem) :
    firstMatch (l1 ++ l2) rem = firstMatch l2 rem := by
  induction l1 with
  | nil => rfl
  | cons x xs ih =>
    have hx : ¬ MatchesNE x rem := h x (List.mem_cons_self _ _)
    have hrec : firstMatch (xs ++ l2) rem = firstMatch l2 rem :=
      ih (fun r hr => h r (List.mem_cons_of_mem _ hr))
    cases hm : x.matcher rem with
    | none => rw [List.cons_append]; simp only [firstMatch, hm]; exact hrec
    | some s0 =>
      have hse : s0.isEmpty = true := by
        by_contra hne
        exact hx ⟨s0, hm, by simpa [List.isEmpty_iff] using hne⟩
      rw [List.cons_append]
      simp only [firstMatch, hm, hse, if_true]
      exact hrec

theorem firstMatch_cons_of_match {x : LexRule} {xs : List LexRule}
    {rem s : List Char} (hm : x.matcher rem = some s) (hne : s ≠ []) :
    firstMatch (x :: xs) rem = some (x, s) := by
  have hse : s.isEmpty = false := by
    simpa [List.isEmpty_iff] using hne
  simp only [firstMatch, hm, hse, Bool.false_eq_true, if_false]

theorem spanOffsets_flat_scan (cfg : LexConfig) (rules : List LexRule)
    (hB : MatchersBounded rules) :
    ∀ (fuel : Nat) (rem : List Char) (o line col : Nat), rem.length ≤ fuel →
      (scanFuel cfg rules fuel rem o line col).flatMap spanOffsets =
        List.range' o rem.length := by
  intro fuel
  induction fuel with
  | zero =>
    intro rem o line col hle
    have : rem = [] := List.length_eq_zero.mp (Nat.le_zero.mp hle)
    subst this
    simp [scanFuel]
  | succ fuel ih =>
    intro rem o line col hle
    match rem with
    | [] => simp [scanFuel]
    | c :: rest =>
      rw [scanFuel]
      by_cases hskip : shouldSkip cfg c
      · rw [if_pos hskip]
        rw [List.flatMap_cons, ih rest (o + 1) _ _ (by simpa using hle)]
        have : spanOffsets (Event.ws c o) = List.range' o 1 := rfl
        rw [this, List.range'_append_1]
        simp [Nat.add_comm]
      · rw [if_neg hskip]
        cases hfm : firstMatch rules (c :: rest) with
        | some rs =>
          obtain ⟨r, s⟩ := rs
          rcases firstMatch_eq_some hfm with ⟨hm, hs, hmem⟩
          have hlen1 : 1 ≤ s.length := by
            cases s with
            | nil => exact absurd rfl hs
            | cons a as => simp
          have hlenle : s.length ≤ (c :: rest).length := hB r hmem _ _ hm
          have hdroplen : ((c :: rest).drop s.length).length =
              (c :: rest).length - s.length := List.length_drop _ _
          have hfuel : ((c :: rest).drop s.length).length ≤ fuel := by
            rw [hdroplen]
            have : (c :: rest).length - s.length ≤ (c :: rest).length - 1 :=
              Nat.sub_le_sub_left hlen1 _
            exact Nat.le_trans this (by simpa using Nat.sub_le_sub_right hle 1)
          rw [List.flatMap_cons,
            ih ((c :: rest).drop s.length) (o + s.length) _ _ hfuel, hdroplen]
          have : spanOffsets (Event.matched (mkMatchToken r s ⟨line, col, o⟩) s.length o) =
              List.range' o s.length := rfl
          rw [this, List.range'_append_1, Nat.sub_add_cancel hlenle]
        | none =>
          rw [List.flatMap_cons, ih rest (o + 1) _ _ (by simpa using hle)]
          have : spanOffsets (Event.err
              { type := "ERROR", value := [c], position := ⟨line, col, o⟩,
                metadataError := some ("Unexpected character: " ++ String.mk [c]) } o) =
              List.range' o 1 := rfl
          rw [this, List.range'_append_1]
          simp [Nat.add_comm]

theorem tokensOf_cons_none {e : Event} {es : List Event} (h : eventToken e = none) :
    tokensOf (e :: es) = tokensOf es := by
  simp [tokensOf, List.filterMap_cons, h]

theorem tokensOf_cons_some {e : Event} {es : List Event} {t : Token}
    (h : eventToken e = some t) : tokensOf (e :: es) = t :: tokensOf es := by
  simp [tokensOf, List.filterMap_cons, h]

theorem mkMatchToken_position {rules : List LexRule} (hA : ActionsPreservePos rules)
    {r : LexRule} (hmem : r ∈ rules) {s : List Char} {pos : Position} {t : Token}
    (h : mkMatchToken r s pos = some t) : t.position = pos := by
  unfold mkMatchToken at h
  cases hact : r.action with
  | none =>
    rw [hact] at h
    cases h
    rfl
  | some act =>
    rw [hact] at h
    exact hA r hmem act hact s pos t h

theorem tokensOf_scan_offsets (cfg : LexConfig) (rules : List LexRule)
    (hA : ActionsPreservePos rules) :
    ∀ (fuel : Nat) (rem : List Char) (o line col : Nat),
      (∀ t ∈ tokensOf (scanFuel cfg rules fuel rem o line col), o ≤ t.position.offset) ∧
      (tokensOf (scanFuel cfg rules fuel rem o line col)).Pairwise
        (fun a b => a.position.offset < b.position.offset) := by
  intro fuel
  induction fuel with
  | zero => intro rem o line col; simp [scanFuel, tokensOf]
  | succ fuel ih =>
    intro rem o line col
    match rem with
    | [] => simp [scanFuel, tokensOf]
    | c :: rest =>
      rw [scanFuel]
      by_cases hskip : shouldSkip cfg c
      · rw [if_pos hskip]
        simp only [tokensOf, List.filterMap_cons, eventToken]
        rcases ih rest (o + 1) (if c = '\n' then line + 1 else line)
          (if c = '\n' then 1 else col + 1) with ⟨ihall, ihpw⟩
        simp only [tokensOf] at ihall ihpw
        exact ⟨fun t ht => Nat.le_trans (Nat.le_succ o) (ihall t ht), ihpw⟩
      · rw [if_neg hskip]
        cases hfm : firstMatch rules (c :: rest) with
        | some rs =>
          obtain ⟨r, s⟩ := rs
          dsimp only
          rcases firstMatch_eq_some hfm with ⟨hm, hs, hmem⟩
          have hlen1 : 1 ≤ s.length := by
            cases s with
            | nil => exact absurd rfl hs
            | cons a as => simp
          rcases ih ((c :: rest).drop s.length) (o + s.length)
            (advanceLineCol line col s).1 (advanceLineCol line col s).2 with ⟨ihall, ihpw⟩
          simp only [tokensOf] at ihall ihpw
          have holt : ∀ t ∈ (scanFuel cfg rules fuel ((c :: rest).drop s.length)
              (o + s.length) (advanceLineCol line col s).1
              (advanceLineCol line col s).2).filterMap eventToken,
              o < t.position.offset := by
            intro t ht
            exact Nat.lt_of_lt_of_le (Nat.lt_add_of_pos_right hlen1) (ihall t ht)
          cases htok : mkMatchToken r s { line := line, column := col, offset := o } with
          | none =>
            simp only [tokensOf, List.filterMap_cons, eventToken]
            exact ⟨fun t ht => Nat.le_of_lt (holt t ht), ihpw⟩
          | some t0 =>
            simp only [tokensOf, List.filterMap_cons, eventToken]
            have ht0 : t0.position.offset = o := by
              rw [mkMatchToken_position hA hmem htok]
            constructor
            · intro t ht
              rcases List.mem_cons.mp ht with h1 | h2
              · subst h1; rw [ht0]
              · exact Nat.le_of_lt (holt t h2)
            · refine List.Pairwise.cons ?_ ihpw
              intro t ht
              rw [ht0]
              exact holt t ht
        | none =>
          simp only [tokensOf, List.filterMap_cons, eventToken]
          rcases ih rest (o + 1) line (col + 1) with ⟨ihall, ihpw⟩
          simp only [tokensOf] at ihall ihpw
          constructor
          · intro t ht
            rcases List.mem_cons.mp ht with h1 | h2
            · subst h1; exact Nat.le_refl o
            · exact Nat.le_trans (Nat.le_succ o) (ihall t h2)
          · refine List.Pairwise.cons ?_ ihpw
            intro t ht
            exact Nat.lt_of_lt_of_le (Nat.lt_succ_self o) (ihall t ht)

/-- Descending order by effective precedence (the Rule-Set invariant). -/
def SortedDesc (l : List LexRule) : Prop :=
  l.Pairwise (fun a b => precOf b ≤ precOf a)

theorem mem_insertByPrec {r y : LexRule} {l : List LexRule} :
    y ∈ insertByPrec r l ↔ y = r ∨ y ∈ l := by
  induction l with
  | nil => simp [insertByPrec]
  | cons x xs ih =>
    rw [insertByPrec]
    by_cases hp : precOf x < precOf r
    · rw [if_pos hp]
      simp only [List.mem_cons]
    · rw [if_neg hp]
      simp only [List.mem_cons, ih]
      tauto

theorem insertByPrec_sorted {l : List LexRule} (h : SortedDesc l) (r : LexRule) :
    SortedDesc (insertByPrec r l) := by
  induction l with
  | nil => simp [insertByPrec, SortedDesc]
  | cons x xs ih =>
    rw [insertByPrec]
    rcases (List.pairwise_cons.mp h) with ⟨hx, hxs⟩
    by_cases hp : precOf x < precOf r
    · rw [if_pos hp]
      refine List.Pairwise.cons ?_ h
      intro y hy
      rcases List.mem_cons.mp hy with h1 | h2
      · subst h1; exact Int.le_of_lt hp
      · exact Int.le_trans (hx y h2) (Int.le_of_lt hp)
    · rw [if_neg hp]
      refine List.Pairwise.cons ?_ (ih hxs)
      intro y hy
      rcases mem_insertByPrec.mp hy with h1 | h2
      · subst h1; exact Int.not_lt.mp hp
      · exact hx y h2

theorem insertByPrec_filter {l : List LexRule} (h : SortedDesc l) (r : LexRule) (p : Int) :
    (insertByPrec r l).filter (fun x => precOf x == p) =
      if precOf r = p then l.filter (fun x => precOf x == p) ++ [r]
      else l.filter (fun x => precOf x == p) := by
  induction l with
  | nil =>
    by_cases hrp : precOf r = p
    · have hb : (precOf r == p) = true := by simpa using hrp
      simp [insertByPrec, List.filter, hb, hrp]
    · have hb : (precOf r == p) = false := by simpa using hrp
      simp [insertByPrec, List.filter, hb, hrp]
  | cons x xs ih =>
    rcases (List.pairwise_cons.mp h) with ⟨hx, hxs⟩
    rw [insertByPrec]
    by_cases hp : precOf x < precOf r
    · rw [if_pos hp]
      by_cases hrp : precOf r = p
      · have hnil : (x :: xs).filter (fun y => precOf y == p) = [] := by
          rw [List.filter_eq_nil_iff]
          intro y hy
          have hle : precOf y ≤ precOf x := by
            rcases List.mem_cons.mp hy with h1 | h2
            · subst h1; exact Int.le_refl _
            · exact hx y h2
          have : precOf y < p := by
            rw [← hrp]
            exact Int.lt_of_le_of_lt hle hp
          simpa using Int.ne_of_lt this
        rw [if_pos hrp]
        rw [List.filter_cons_of_pos (by simpa using hrp), hnil]
        simp
      · rw [if_neg hrp]
        rw [List.filter_cons_of_neg (by simpa using hrp)]
    · rw [if_neg hp]
      by_cases hxp : precOf x = p
      · rw [List.filter_cons_of_pos (by simpa using hxp),
          List.filter_cons_of_pos (by simpa using hxp), ih hxs]
        by_cases hrp : precOf r = p
        · rw [if_pos hrp, if_pos hrp, List.cons_append]
        · rw [if_neg hrp, if_neg hrp]
      · rw [List.filter_cons_of_neg (by simpa using hxp),
          List.filter_cons_of_neg (by simpa using hxp), ih hxs]

theorem foldl_insertByPrec_sorted (rules : List LexRule) :
    ∀ acc : List LexRule, SortedDesc acc →
      SortedDesc (rules.foldl (fun a r => insertByPrec r a) acc) := by
  induction rules with
  | nil => intro acc h; exact h
  | cons r rs ih =>
    intro acc h
    exact ih (insertByPrec r acc) (insertByPrec_sorted h r)

theorem sortRules_sorted (rules : List LexRule) : SortedDesc (sortRules rules) :=
  foldl_insertByPrec_sorted rules [] (List.Pairwise.nil)

theorem foldl_insertByPrec_filter (p : Int) (rules : List LexRule) :
    ∀ acc : List LexRule, SortedDesc acc →
      (rules.foldl (fun a r => insertByPrec r a) acc).filter (fun x => precOf x == p) =
        acc.filter (fun x => precOf x == p) ++ rules.filter (fun x => precOf x == p) := by
  induction rules with
  | nil => intro acc h; simp
  | cons r rs ih =>
    intro acc h
    rw [List.foldl_cons, ih (insertByPrec r acc) (insertByPrec_sorted h r),
      insertByPrec_filter h r p]
    by_cases hrp : precOf r = p
    · rw [if_pos hrp, List.filter_cons_of_pos (by simpa using hrp)]
      simp [List.append_assoc]
    · rw [if_neg hrp, List.filter_cons_of_neg (by simpa using hrp)]

theorem sortRules_filter (rules : List LexRule) (p : Int) :
    (sortRules rules).filter (fun x => precOf x == p) =
      rules.filter (fun x => precOf x == p) := by
  have := foldl_insertByPrec_filter p rules [] (List.Pairwise.nil)
  simpa [sortRules] using this

theorem scanFuel_nil (cfg : LexConfig) (rules : List LexRule) (fuel o line col : Nat) :
    scanFuel cfg rules fuel [] o line col = [] := by
  cases fuel <;> rfl

theorem scanFuel_length_le (cfg : LexConfig) (rules : List LexRule) :
    ∀ (fuel : Nat) (rem : List Char) (o line col : Nat),
      (scanFuel cfg rules fuel rem o line col).length ≤ rem.length := by
  intro fuel
  induction fuel with
  | zero => intro rem o line col; simp [scanFuel]
  | succ fuel ih =>
    intro rem o line col
    match rem with
    | [] => simp [scanFuel]
    | c :: rest =>
      rw [scanFuel]
      by_cases hskip : shouldSkip cfg c
      · rw [if_pos hskip]
        simpa using ih rest (o + 1) _ _
      · rw [if_neg hskip]
        cases hfm : firstMatch rules (c :: rest) with
        | some rs =>
          obtain ⟨r, s⟩ := rs
          dsimp only
          rcases firstMatch_eq_some hfm with ⟨hm, hs, hmem⟩
          have hlen1 : 1 ≤ s.length := by
            cases s with
            | nil => exact absurd rfl hs
            | cons a as => simp
          have h1 : ((c :: rest).drop s.length).length = (c :: rest).length - s.length :=
            List.length_drop _ _
          have h2 := ih ((c :: rest).drop s.length) (o + s.length)
            (advanceLineCol line col s).1 (advanceLineCol line col s).2
          rw [h1] at h2
          have h3 : (c :: rest).length - s.length ≤ rest.length := by
            have : (c :: rest).length - s.length ≤ (c :: rest).length - 1 :=
              Nat.sub_le_sub_left hlen1 _
            simpa using this
          simpa using Nat.add_le_add_right (Nat.le_trans h2 h3) 1
        | none =>
          dsimp only
          simpa using ih rest (o + 1) line (col + 1)

theorem scanFuel_event_span_pos (cfg : LexConfig) (rules : List LexRule) :
    ∀ (fuel : Nat) (rem : List Char) (o line col : Nat),
      ∀ e ∈ scanFuel cfg rules fuel rem o line col, 1 ≤ (eventSpan e).2 := by
  intro fuel
  induction fuel with
  | zero => intro rem o line col; simp [scanFuel]
  | succ fuel ih =>
    intro rem o line col
    match rem with
    | [] => simp [scanFuel]
    | c :: rest =>
      rw [scanFuel]
      by_cases hskip : shouldSkip cfg c
      · rw [if_pos hskip]
        intro e he
        rcases List.mem_cons.mp he with h1 | h2
        · subst h1; exact Nat.le_refl 1
        · exact ih rest (o + 1) _ _ e h2
      · rw [if_neg hskip]
        cases hfm : firstMatch rules (c :: rest) with
        | some rs =>
          obtain ⟨r, s⟩ := rs
          dsimp only
          rcases firstMatch_eq_some hfm with ⟨hm, hs, hmem⟩
          intro e he
          rcases List.mem_cons.mp he with h1 | h2
          · subst h1
            cases s with
            | nil => exact absurd rfl hs
            | cons a as => simp [eventSpan]
          · exact ih _ _ _ _ e h2
        | none =>
          dsimp only
          intro e he
          rcases List.mem_cons.mp he with h1 | h2
          · subst h1; exact Nat.le_refl 1
          · exact ih rest (o + 1) line (col + 1) e h2

theorem scanFuel_fuel_irrelevant (cfg : LexConfig) (rules : List LexRule) :
    ∀ (f1 f2 : Nat) (rem : List Char) (o line col : Nat),
      rem.length ≤ f1 → rem.length ≤ f2 →
      scanFuel cfg rules f1 rem o line col = scanFuel cfg rules f2 rem o line col := by
  intro f1
  induction f1 with
  | zero =>
    intro f2 rem o line col h1 h2
    have : rem = [] := List.length_eq_zero.mp (Nat.le_zero.mp h1)
    subst this
    rw [scanFuel_nil, scanFuel_nil]
  | succ f1 ih =>
    intro f2 rem o line col h1 h2
    match rem with
    | [] => rw [scanFuel_nil, scanFuel_nil]
    | c :: rest =>
      match f2 with
      | 0 => exact absurd h2 (by simp)
      | f2 + 1 =>
        rw [scanFuel, scanFuel]
        by_cases hskip : shouldSkip cfg c
        · rw [if_pos hskip, if_pos hskip]
          rw [ih f2 rest (o + 1) _ _ (by simpa using h1) (by simpa using h2)]
        · rw [if_neg hskip, if_neg hskip]
          cases hfm : firstMatch rules (c :: rest) with
          | some rs =>
            obtain ⟨r, s⟩ := rs
            dsimp only
            rcases firstMatch_eq_some hfm with ⟨hm, hs, hmem⟩
            have hlen1 : 1 ≤ s.length := by
              cases s with
              | nil => exact absurd rfl hs
              | cons a as => simp
            have hd : ((c :: rest).drop s.length).length ≤ f1 := by
              rw [List.length_drop]
              have : (c :: rest).length - s.length ≤ (c :: rest).length - 1 :=
                Nat.sub_le_sub_left hlen1 _
              exact Nat.le_trans this (by simpa using Nat.sub_le_sub_right h1 1)
            have hd2 : ((c :: rest).drop s.length).length ≤ f2 := by
              rw [List.length_drop]
              have : (c :: rest).length - s.length ≤ (c :: rest).length - 1 :=
                Nat.sub_le_sub_left hlen1 _
              exact Nat.le_trans this (by simpa using Nat.sub_le_sub_right h2 1)
            rw [ih f2 _ _ _ _ hd hd2]
          | none =>
            dsimp only
            rw [ih f2 rest (o + 1) line (col + 1) (by simpa using h1) (by simpa using h2)]

/-! Claim theorems. -/

/-- C3: the spec and the declared `TokenRule` interface say a custom matcher
function pattern is invoked with `(source, offset)` and its result used as
the match.  The implementation's `compilePattern` instead treats every
non-`RegExp` pattern as a string and calls `pattern.replace` on it, which
for a function value throws `TypeError: pattern.replace is not a function`;
the matcher function is never invoked.  This theorem evaluates the embedded
`compilePattern` on an arbitrary custom matcher pattern. -/
theorem custom_pattern_compile_error (cs : Bool)
    (f : List Char → Nat → Option (List Char)) :
    compilePatternE cs (LexPatternSyn.custom f) =
      Except.error "pattern.replace is not a function" := rfl

/-- C4: at an offset whose character is not skipped and where no rule
matches, the scan emits exactly one token of type `ERROR` whose value is
that single character and whose `metadata.error` is
`Unexpected character: <char>`, then continues scanning from the next
offset (offset advanced by exactly one). -/
theorem unmatched_char_error_token (cfg : LexConfig) (rules : List LexRule)
    (c : Char) (rest : List Char) (fuel o line col : Nat)
    (hskip : shouldSkip cfg c = false)
    (hnm : firstMatch rules (c :: rest) = none) :
    scanFuel cfg rules (fuel + 1) (c :: rest) o line col =
      Event.err
        { type := "ERROR", value := [c],
          position := { line := line, column := col, offset := o },
          metadataError := some ("Unexpected character: " ++ String.mk [c]) } o ::
        scanFuel cfg rules fuel rest (o + 1) line (col + 1) := by
  rw [scanFuel, if_neg (by simp [hskip]), hnm]

/-- Witness for C4: scanning `#` with no rules produces the single error
token of the claim. -/
theorem unmatched_char_error_token_witness :
    scanFuel cfgSkipAll [] (0 + 1) ['#'] 0 1 1 =
      Event.err
        { type := "ERROR", value := ['#'],
          position := { line := 1, column := 1, offset := 0 },
          metadataError := some ("Unexpected character: " ++ String.mk ['#']) } 0 ::
        scanFuel cfgSkipAll [] 0 [] (0 + 1) 1 (1 + 1) :=
  unmatched_char_error_token cfgSkipAll [] '#' [] 0 0 1 1 rfl rfl

/-- C10: on the error path the line counter is never incremented and the
column counter increments by exactly one, even when the unmatched character
is a newline: the continuation scans the rest at the same `line` and at
`column + 1`, so subsequent tokens keep the line number. -/
theorem error_newline_keeps_line (cfg : LexConfig) (rules : List LexRule)
    (rest : List Char) (fuel o line col : Nat)
    (hskip : shouldSkip cfg '\n' = false)
    (hnm : firstMatch rules ('\n' :: rest) = none) :
    scanFuel cfg rules (fuel + 1) ('\n' :: rest) o line col =
      Event.err
        { type := "ERROR", value := ['\n'],
          position := { line := line, column := col, offset := o },
          metadataError := some ("Unexpected character: " ++ String.mk ['\n']) } o ::
        scanFuel cfg rules fuel rest (o + 1) line (col + 1) := by
  rw [scanFuel, if_neg (by simp [hskip]), hnm]

/-- Witness for C10: with whitespace skipping disabled and no rules, an
unmatched newline yields an error token and the scan continues on the same
line with the column advanced by one. -/
theorem error_newline_keeps_line_witness :
    scanFuel cfgNoSkip [] (0 + 1) ['\n'] 0 1 1 =
      Event.err
        { type := "ERROR", value := ['\n'],
          position := { line := 1, column := 1, offset := 0 },
          metadataError := some ("Unexpected character: " ++ String.mk ['\n']) } 0 ::
        scanFuel cfgNoSkip [] 0 [] (0 + 1) 1 (1 + 1) :=
  error_newline_keeps_line cfgNoSkip [] [] 0 0 1 1 rfl rfl

/-- C8: the scan loop terminates within `source.length` iterations: with
any fuel of at least `source.length` the scan result is already the full
result (no iteration is cut off), the number of iterations is at most
`source.length`, and every iteration advances the offset by at least one
character (whitespace skip by one, a match by the matched length, the
error path by one). -/
theorem tokenize_bounded_iterations (cfg : LexConfig) (rules : List LexRule)
    (source : List Char) :
    (∀ fuel, source.length ≤ fuel →
        scanFuel cfg rules fuel source 0 1 1 = tokenizeEvents cfg rules source)
    ∧ (tokenizeEvents cfg rules source).length ≤ source.length
    ∧ (∀ e ∈ tokenizeEvents cfg rules source, 1 ≤ (eventSpan e).2) := by
  refine ⟨?_, ?_, ?_⟩
  · intro fuel hf
    exact scanFuel_fuel_irrelevant cfg rules fuel source.length source 0 1 1 hf
      (Nat.le_refl _)
  · exact scanFuel_length_le cfg rules source.length source 0 1 1
  · exact scanFuel_event_span_pos cfg rules source.length source 0 1 1

/-- Witness for C8 at a concrete two-character source with surplus fuel. -/
theorem tokenize_bounded_iterations_witness :
    scanFuel cfgSkipAll [ruleA] 5 ['a', 'b'] 0 1 1 =
      tokenizeEvents cfgSkipAll [ruleA] ['a', 'b']
    ∧ (tokenizeEvents cfgSkipAll [ruleA] ['a', 'b']).length ≤ 2
    ∧ (∀ e ∈ tokenizeEvents cfgSkipAll [ruleA] ['a', 'b'], 1 ≤ (eventSpan e).2) :=
  ⟨(tokenize_bounded_iterations cfgSkipAll [ruleA] ['a', 'b']).1 5 (by decide),
   (tokenize_bounded_iterations cfgSkipAll [ruleA] ['a', 'b']).2.1,
   (tokenize_bounded_iterations cfgSkipAll [ruleA] ['a', 'b']).2.2⟩

/-- C6: `reset(position)` sets the cursor to exactly `position` when
`0 ≤ position ≤ tokenCount`, and otherwise throws
`Invalid reset position: <position>` leaving the stream state (cursor
included) unchanged. -/
theorem reset_position_contract (ts : TokenStream) (p : Int) :
    (0 ≤ p ∧ p ≤ (ts.tokens.length : Int) →
      TokenStream.reset ts p = ({ ts with currentIndex := p.toNat }, none))
    ∧ (p < 0 ∨ (ts.tokens.length : Int) < p →
      TokenStream.reset ts p =
        (ts, some ("Invalid reset position: " ++ toString p))) := by
  constructor
  · intro h
    rw [TokenStream.reset, if_pos h]
  · intro h
    rw [TokenStream.reset, if_neg]
    intro hcontra
    rcases h with h3 | h3
    · exact absurd hcontra.1 (Int.not_le.mpr h3)
    · exact absurd hcontra.2 (Int.not_le.mpr h3)

/-- Witness for C6: on an empty stream, `reset 99` fails without touching
the state and `reset 0` succeeds, setting the cursor to 0. -/
theorem reset_position_contract_witness :
    TokenStream.reset { tokens := [], currentIndex := 0, marks := [] } 99 =
      ({ tokens := [], currentIndex := 0, marks := [] },
        some ("Invalid reset position: " ++ toString (99 : Int)))
    ∧ TokenStream.reset { tokens := [], currentIndex := 0, marks := [] } 0 =
      ({ tokens := [], currentIndex := 0, marks := [] }, none) :=
  ⟨(reset_position_contract { tokens := [], currentIndex := 0, marks := [] } 99).2
      (Or.inr (by decide)),
   (reset_position_contract { tokens := [], currentIndex := 0, marks := [] } 0).1
      ⟨by decide, by decide⟩⟩

/-- C2: the constructor's rule list is sorted by descending effective
precedence, stable on ties (for every precedence value, the rules carrying
it stay in registration order, so of two equal-precedence rules the
earlier-registered comes first), and the scan step selects the first rule
in that sorted order whose compiled matcher succeeds non-emptily — rule
order priority, not longest match. -/
theorem rule_priority_first_match (rules : List LexRule) :
    SortedDesc (sortRules rules)
    ∧ (∀ p : Int, (sortRules rules).filter (fun x => precOf x == p) =
        rules.filter (fun x => precOf x == p))
    ∧ (∀ (l1 l2 : List LexRule) (r : LexRule) (s rem : List Char),
        sortRules rules = l1 ++ r :: l2 →
        (∀ r' ∈ l1, ¬ MatchesNE r' rem) →
        r.matcher rem = some s → s ≠ [] →
        firstMatch (sortRules rules) rem = some (r, s))
    ∧ (∀ (cfg : LexConfig) (fuel o line col : Nat) (c : Char) (rest : List Char)
        (r : LexRule) (s : List Char),
        shouldSkip cfg c = false →
        firstMatch (sortRules rules) (c :: rest) = some (r, s) →
        scanFuel cfg (sortRules rules) (fuel + 1) (c :: rest) o line col =
          Event.matched (mkMatchToken r s { line := line, column := col, offset := o })
              s.length o ::
            scanFuel cfg (sortRules rules) fuel ((c :: rest).drop s.length)
              (o + s.length) (advanceLineCol line col s).1 (advanceLineCol line col s).2) := by
  refine ⟨sortRules_sorted rules, fun p => sortRules_filter rules p, ?_, ?_⟩
  · intro l1 l2 r s rem heq hno hm hs
    rw [heq, firstMatch_append_left hno, firstMatch_cons_of_match hm hs]
  · intro cfg fuel o line col c rest r s hskip hfm
    rw [scanFuel, if_neg (by simp [hskip]), hfm]

/-- Witness for C2: two rules of equal (default) precedence both matching
`a`, registered `ruleA` then `ruleB`; sorting keeps the registration order
and the first-registered rule wins the match. -/
theorem rule_priority_first_match_witness :
    sortRules [ruleA, ruleB] = [ruleA, ruleB]
    ∧ firstMatch (sortRules [ruleA, ruleB]) ['a'] = some (ruleA, ['a']) :=
  ⟨rfl,
   (rule_priority_first_match [ruleA, ruleB]).2.2.1 [] [ruleB] ruleA ['a'] ['a']
     rfl (by intro r' hr'; simp at hr') rfl (by simp)⟩

/-- C9: a rule whose matcher reports the empty match at the current offset
is treated as if it did not match: the rule loop skips it exactly as if the
rule were absent, and a successful overall match always has non-empty
matched text (so no zero-length token is ever produced by the match path;
when no rule matches non-emptily, the error path of C4 applies). -/
theorem empty_match_falls_through (rules l1 l2 : List LexRule) (r : LexRule)
    (rem : List Char) :
    (r.matcher rem = some [] →
      firstMatch (l1 ++ r :: l2) rem = firstMatch (l1 ++ l2) rem)
    ∧ (∀ r' s, firstMatch rules rem = some (r', s) → s ≠ []) := by
  constructor
  · intro h
    induction l1 with
    | nil =>
      rw [List.nil_append, List.nil_append]
      simp only [firstMatch, h, List.isEmpty_nil, if_true]
    | cons x xs ih =>
      rw [List.cons_append, List.cons_append]
      cases hx : x.matcher rem with
      | none => simp only [firstMatch, hx]; exact ih
      | some s0 =>
        by_cases he : s0.isEmpty
        · simp only [firstMatch, hx, he, if_true]
          exact ih
        · simp only [firstMatch, hx, he, Bool.false_eq_true, if_false]
  · intro r' s h
    exact (firstMatch_eq_some h).2.1

/-- Witness for C9: an always-empty-matching rule placed first falls
through to the later literal rule, whose match is non-empty. -/
theorem empty_match_falls_through_witness :
    firstMatch ([] ++ ruleEmpty :: [ruleA]) ['a'] = firstMatch ([] ++ [ruleA]) ['a']
    ∧ (['a'] : List Char) ≠ [] :=
  ⟨(empty_match_falls_through [ruleEmpty, ruleA] [] [ruleA] ruleEmpty ['a']).1 rfl,
   (empty_match_falls_through [ruleEmpty, ruleA] [] [ruleA] ruleEmpty ['a']).2 ruleA ['a'] rfl⟩

theorem count_removeFirst_self (c : Char) (l : List Char) :
    (removeFirst c l).count c = l.count c - 1 := by
  induction l with
  | nil => simp [removeFirst]
  | cons x xs ih =>
    by_cases hx : x = c
    · subst hx
      rw [removeFirst, if_pos rfl]
      simp [List.count_cons]
    · rw [removeFirst, if_neg hx]
      have hcx : ¬ (c = x) := fun h => hx h.symm
      simp [List.count_cons, hcx, ih]

theorem count_removeFirst_of_ne {c d : Char} (h : c ≠ d) (l : List Char) :
    (removeFirst d l).count c = l.count c := by
  induction l with
  | nil => simp [removeFirst]
  | cons x xs ih =>
    by_cases hx : x = d
    · subst hx
      rw [removeFirst, if_pos rfl]
      simp [List.count_cons, fun hh => h hh]
    · rw [removeFirst, if_neg hx]
      simp [List.count_cons, ih]

/-- C5: the compiled matcher's case behaviour is determined solely by the
`caseSensitive` setting — the compiled flags of a regex pattern contain the
case-insensitive flag iff the policy is case-insensitive (an embedded `i`
is removed under `caseSensitive: true`, and `i` is added under
`caseSensitive: false` even if absent), and a literal string pattern gets
the identical flag treatment after escaping.  The hypothesis records that
a JS `RegExp` never carries a duplicated flag character. -/
theorem compile_case_flag_policy (cs : Bool) (src flags lit : List Char)
    (hval : flags.count 'i' ≤ 1) :
    ((compilePatternE cs (LexPatternSyn.regex src flags)).map
        (fun re => re.flags.contains 'i') = Except.ok (!cs))
    ∧ ((compilePatternE cs (LexPatternSyn.str lit)).map
        (fun re => re.flags.contains 'i') = Except.ok (!cs)) := by
  constructor
  · have hc1 : ((removeFirst 'g' flags).count 'i') ≤ 1 := by
      rw [count_removeFirst_of_ne (by decide)]
      exact hval
    cases cs with
    | true =>
      by_cases hci : 'i' ∈ removeFirst 'g' flags
      · have hpos : 1 ≤ (removeFirst 'g' flags).count 'i' :=
          List.one_le_count_iff.mpr hci
        have hzero : ((removeFirst 'i' (removeFirst 'g' flags)).count 'i') = 0 := by
          rw [count_removeFirst_self]
          omega
        have hnmem : 'i' ∉ removeFirst 'i' (removeFirst 'g' flags) :=
          List.count_eq_zero.mp hzero
        simp [compilePatternE, Except.map, hci, hnmem]
      · simp [compilePatternE, Except.map, hci]
    | false =>
      by_cases hci : 'i' ∈ removeFirst 'g' flags
      · simp [compilePatternE, Except.map, hci]
      · simp [compilePatternE, Except.map, hci]
  · cases cs with
    | true => simp [compilePatternE, Except.map]
    | false => simp [compilePatternE, Except.map]

/-- Witness for C5: under `caseSensitive: true` a regex pattern with flags
`gi` compiles to flags without `i`; under the same policy a literal string
pattern compiles with no `i` flag. -/
theorem compile_case_flag_policy_witness :
    ((compilePatternE true (LexPatternSyn.regex ['a'] ['g', 'i'])).map
        (fun re => re.flags.contains 'i') = Except.ok false)
    ∧ ((compilePatternE true (LexPatternSyn.str ['b'])).map
        (fun re => re.flags.contains 'i') = Except.ok false) :=
  compile_case_flag_policy true ['a'] ['g', 'i'] ['b'] (by decide)

theorem mem_firstOccurrencesAux {a : String} :
    ∀ (l : List String) (seen : List String),
      a ∈ firstOccurrencesAux seen l ↔ a ∈ l ∧ a ∉ seen := by
  intro l
  induction l with
  | nil => intro seen; simp [firstOccurrencesAux]
  | cons t ts ih =>
    intro seen
    rw [firstOccurrencesAux]
    by_cases ht : t ∈ seen
    · rw [if_pos ht, ih seen]
      simp only [List.mem_cons]
      constructor
      · rintro ⟨h1, h2⟩
        exact ⟨Or.inr h1, h2⟩
      · rintro ⟨h1 | h1, h2⟩
        · subst h1; exact absurd ht h2
        · exact ⟨h1, h2⟩
    · rw [if_neg ht]
      simp only [List.mem_cons, ih (t :: seen)]
      constructor
      · rintro (h1 | ⟨h1, h2⟩)
        · subst h1; exact ⟨Or.inl rfl, ht⟩
        · exact ⟨Or.inr h1, fun hs => h2 (Or.inr hs)⟩
      · rintro ⟨h1 | h1, h2⟩
        · subst h1; exact Or.inl rfl
        · by_cases hat : a = t
          · exact Or.inl hat
          · exact Or.inr ⟨h1, fun hs => by
              rcases hs with h3 | h3
              · exact hat h3
              · exact h2 h3⟩

theorem mem_firstOccurrences {a : String} {l : List String} :
    a ∈ firstOccurrences l ↔ a ∈ l := by
  rw [firstOccurrences, mem_firstOccurrencesAux]
  simp

/-- C7: `validateRules` is a total function returning a structured result:
an empty rule set yields the `No token rules defined` error and `valid:
false`; every type registered by more than one rule yields its duplicate
warning; every rule whose pattern fails to compile yields an error carrying
the thrown message; and `valid` is true exactly when the error list is
empty. -/
theorem validateRules_structure (cs : Bool) (rules : List TokenRule) :
    (rules = [] → "No token rules defined" ∈ (validateRules cs rules).errors
        ∧ (validateRules cs rules).valid = false)
    ∧ (∀ t : String, 1 < countType rules t →
        ("Multiple rules defined for type \x22" ++ t ++ "\x22") ∈
          (validateRules cs rules).warnings)
    ∧ (∀ r ∈ rules, ∀ m, compilePatternE cs r.pattern = Except.error m →
        ("Invalid pattern for rule \x22" ++ r.type ++ "\x22: " ++ m) ∈
          (validateRules cs rules).errors)
    ∧ ((validateRules cs rules).valid = true ↔ (validateRules cs rules).errors = []) := by
  refine ⟨?_, ?_, ?_, ?_⟩
  · intro h
    subst h
    refine ⟨?_, ?_⟩ <;> simp [validateRules]
  · intro t hcount
    have hne : rules.filter (fun r => r.type = t) ≠ [] := by
      intro hnil
      rw [countType, hnil] at hcount
      simp at hcount
    obtain ⟨x, hx⟩ := List.exists_mem_of_ne_nil _ hne
    have hx2 := List.mem_filter.mp hx
    have hxt : x.type = t := by simpa using hx2.2
    have hmapped : t ∈ rules.map (fun r => r.type) :=
      List.mem_map.mpr ⟨x, hx2.1, hxt⟩
    have hfo : t ∈ firstOccurrences (rules.map (fun r => r.type)) :=
      mem_firstOccurrences.mpr hmapped
    simp only [validateRules]
    exact List.mem_map.mpr
      ⟨t, List.mem_filter.mpr ⟨hfo, by simpa using hcount⟩, rfl⟩
  · intro r hr m hcompile
    simp only [validateRules]
    refine List.mem_append.mpr (Or.inr ?_)
    exact List.mem_filterMap.mpr ⟨r, hr, by rw [hcompile]⟩
  · simp only [validateRules]
    exact List.isEmpty_iff

/-- Witness for C7: an empty rule set is invalid with the expected error; a
duplicated type yields the duplicate warning; a custom matcher function
pattern yields the compile error carrying the thrown `TypeError` message. -/
theorem validateRules_structure_witness :
    ("No token rules defined" ∈ (validateRules true []).errors
        ∧ (validateRules true []).valid = false)
    ∧ ("Multiple rules defined for type \x22A\x22" ∈
        (validateRules true [vRuleCustom, vRuleStr]).warnings)
    ∧ ("Invalid pattern for rule \x22A\x22: pattern.replace is not a function" ∈
        (validateRules true [vRuleCustom, vRuleStr]).errors) :=
  ⟨(validateRules_structure true []).1 rfl,
   (validateRules_structure true [vRuleCustom, vRuleStr]).2.1 "A" (by decide),
   (validateRules_structure true [vRuleCustom, vRuleStr]).2.2.1 vRuleCustom
     (by simp) "pattern.replace is not a function" rfl⟩

/-- C1 (amended): for every source and every rule set whose matchers never
report more text than remains (true of every JS regex match) and whose rule
actions, when present, return either no token or a token carrying the start
position they were given, the scan's consumed spans — matched spans,
skipped whitespace characters, and one-character error spans — taken in
order, cover the offsets `[0, length source)` exactly once with no gaps or
overlaps, and the positions of the emitted tokens strictly increase in
offset.  (The unamended claim quantifies over rule sets with arbitrary
actions; an action fabricating fixed positions refutes it, see the
counterexample.) -/
theorem tokenize_partitions_offsets (cfg : LexConfig) (rules : List LexRule)
    (source : List Char) (hB : MatchersBounded rules) (hA : ActionsPreservePos rules) :
    (tokenizeEvents cfg rules source).flatMap spanOffsets =
      List.range' 0 source.length
    ∧ (tokenize cfg rules source).Pairwise
        (fun a b => a.position.offset < b.position.offset) := by
  constructor
  · exact spanOffsets_flat_scan cfg rules hB source.length source 0 1 1 (Nat.le_refl _)
  · exact (tokensOf_scan_offsets cfg rules hA source.length source 0 1 1).2

/-- Witness for C1 at the source `a b` with a one-character rule: spans
partition the three offsets and token positions strictly increase. -/
theorem tokenize_partitions_offsets_witness :
    (tokenizeEvents cfgSkipAll [anyCharRule] ['a', ' ', 'b']).flatMap spanOffsets =
      List.range' 0 3
    ∧ (tokenize cfgSkipAll [anyCharRule] ['a', ' ', 'b']).Pairwise
        (fun a b => a.position.offset < b.position.offset) := by
  have hB : MatchersBounded [anyCharRule] := by
    intro r hr rem s h
    have hr2 : r = anyCharRule := by simpa using hr
    subst hr2
    match rem with
    | [] => simp [anyCharRule, oneCharMatcher] at h
    | c :: cs =>
      have : s = [c] := by
        simpa [anyCharRule, oneCharMatcher] using h.symm
      subst this
      simp
  have hA : ActionsPreservePos [anyCharRule] := by
    intro r hr act hact
    have hr2 : r = anyCharRule := by simpa using hr
    subst hr2
    simp [anyCharRule] at hact
  exact tokenize_partitions_offsets cfgSkipAll [anyCharRule] ['a', ' ', 'b'] hB hA

/-- Counterexample to C1 as stated: with a rule whose action fabricates
tokens at the fixed offset 5, scanning `aa` emits two tokens both at
offset 5, so the emitted positions do not strictly increase (and are not
even distinct). -/
theorem tokenize_action_position_cex :
    (tokenize cfgSkipAll [badPosRule] ['a', 'a']).map (fun t => t.position.offset) =
      [5, 5]
    ∧ ¬ (tokenize cfgSkipAll [badPosRule] ['a', 'a']).Pairwise
        (fun a b => a.position.offset < b.position.offset) := by
  constructor
  · rfl
  · intro h
    have he : tokenize cfgSkipAll [badPosRule] ['a', 'a'] =
        [badPosToken, badPosToken] := rfl
    rw [he] at h
    have h2 := (List.pairwise_cons.mp h).1 badPosToken (List.mem_cons_self _ _)
    exact absurd h2 (by decide)
